import Mathlib

/-!
Verification of the SAGE Flow streaming dataflow core against its source.

The development shallowly embeds:
* `ExecutionGraph` (sage_ext/sage_flow/src/engine/execution_graph.cpp):
  operator registry, forward/reverse adjacency, DFS cycle detection and
  topological ordering.
* `StreamEngine` (stream_engine.cpp): graph submission, execution and
  per-graph lifecycle states.
* The operator/function composition layer: `MapFunction`, `FilterFunction`,
  `SinkFunction` (function/*.cpp) and the `process` methods of
  `MapOperator`, `FilterOperator`, `SinkOperator`, `TerminalSinkOperator`
  (operator/*.cpp).

C++ `std::unordered_map` containers are embedded as association lists with a
fixed (registration) iteration order; `std::unique_ptr<MultiModalMessage>`
is embedded as `Option μ` for an abstract message type `μ`; functions that
throw are embedded with `Except String`.
-/

namespace SageFlow

abbrev OperatorId := Nat
abbrev GraphId := Nat

/-! ### Association-list embedding of `std::unordered_map` -/

/-- `m[k] = v` on an association list: replaces any entry for `k`.
Mirrors `map[k] = v` assignment on `std::unordered_map` (unique keys). -/
def alistSet {β : Type} (m : List (Nat × β)) (k : Nat) (v : β) : List (Nat × β) :=
  (k, v) :: m.filter (fun p => p.1 != k)

/-- `map.find(k)` on an association list. -/
def alistGet? {β : Type} (m : List (Nat × β)) (k : Nat) : Option β :=
  (m.find? (fun p => p.1 == k)).map (·.2)

/-- Adjacency lookup: the successor list stored for `k`, or `[]` when no
entry exists (mirrors `find` returning `end()` / `operator[]` defaulting). -/
def mapLookup (m : List (Nat × List Nat)) (k : Nat) : List Nat :=
  (alistGet? m k).getD []

/-! ### ExecutionGraph -/

/-- Embedding of `ExecutionGraph`: `keys` is the key set of `operators_`
in registration order (the operator objects themselves carry no data the
verified behaviour depends on), `adj` is `adjacency_list_`, `radj` is
`reverse_adjacency_list_`, `next_operator_id` is `next_operator_id_`. -/
structure ExecutionGraph where
  keys : List OperatorId
  adj : List (OperatorId × List OperatorId)
  radj : List (OperatorId × List OperatorId)
  next_operator_id : OperatorId
deriving DecidableEq, Repr

/-- A default-constructed `ExecutionGraph`. -/
def emptyGraph : ExecutionGraph := ⟨[], [], [], 0⟩

/-- `ExecutionGraph::addOperator`: assigns the next id, registers the
operator and assigns fresh empty vectors to both adjacency entries
(`adjacency_list_[id] = std::vector<OperatorId>()`, clobbering any
pre-existing entry for that id). -/
def addOperator (g : ExecutionGraph) : OperatorId × ExecutionGraph :=
  let id := g.next_operator_id
  (id, { keys := g.keys ++ [id]
       , adj := alistSet g.adj id []
       , radj := alistSet g.radj id []
       , next_operator_id := id + 1 })

/-- `ExecutionGraph::connectOperators`: appends `target` to the forward
list of `source` and `source` to the reverse list of `target`; no
endpoint validation. -/
def connectOperators (g : ExecutionGraph) (source target : OperatorId) : ExecutionGraph :=
  { g with adj := alistSet g.adj source (mapLookup g.adj source ++ [target])
         , radj := alistSet g.radj target (mapLookup g.radj target ++ [source]) }

/-- `ExecutionGraph::removeOperator`: erases the node from the operator
map and both adjacency maps, then scrubs every occurrence of `id` from
every remaining adjacency list. -/
def removeOperator (g : ExecutionGraph) (id : OperatorId) : ExecutionGraph :=
  { g with keys := g.keys.filter (fun x => x != id)
         , adj := (g.adj.filter (fun p => p.1 != id)).map
             (fun p => (p.1, p.2.filter (fun x => x != id)))
         , radj := (g.radj.filter (fun p => p.1 != id)).map
             (fun p => (p.1, p.2.filter (fun x => x != id))) }

/-- `ExecutionGraph::getSuccessors`. -/
def getSuccessors (g : ExecutionGraph) (id : OperatorId) : List OperatorId :=
  mapLookup g.adj id

/-- `ExecutionGraph::getPredecessors`. -/
def getPredecessors (g : ExecutionGraph) (id : OperatorId) : List OperatorId :=
  mapLookup g.radj id

/-! ### DFS: `topologicalSortUtil`, `detectCycles`, `getTopologicalOrder`

The C++ recursion carries `visited`, `rec_stack` (boolean maps) and the
accumulating post-order vector; we carry them as lists.  The C++ function
recurses without an explicit bound; the embedding uses a fuel parameter
that provably never runs out for the fuel passed by the top-level drivers
(see `topologicalSortUtil_fuel_succ` and `dfsLoop_fuel_le`). -/

structure DfsState where
  visited : List OperatorId
  recStack : List OperatorId
  order : List OperatorId
deriving DecidableEq, Repr

/-- The successor loop inside `topologicalSortUtil`, parametrised by the
recursive call `next` (the util itself at one less fuel). -/
def visitList (next : OperatorId → DfsState → Bool × DfsState) :
    List OperatorId → DfsState → Bool × DfsState
  | [], s => (false, s)
  | y :: ys, s =>
    if y ∈ s.visited then
      if y ∈ s.recStack then (true, s)
      else visitList next ys s
    else
      match next y s with
      | (true, s') => (true, s')
      | (false, s') => visitList next ys s'

/-- `ExecutionGraph::topologicalSortUtil`: marks the node visited and on
the recursion stack, visits all successors (returning `true` on a back
edge), then removes the node from the recursion stack and appends it to
the post-order. -/
def topologicalSortUtil (g : ExecutionGraph) :
    Nat → OperatorId → DfsState → Bool × DfsState
  | 0, _, s => (true, s)
  | fuel + 1, id, s =>
    match visitList (topologicalSortUtil g fuel) (getSuccessors g id)
        ⟨id :: s.visited, id :: s.recStack, s.order⟩ with
    | (true, s2) => (true, s2)
    | (false, s2) => (false, ⟨s2.visited, s2.recStack.erase id, s2.order ++ [id]⟩)

/-- All node ids the DFS can ever touch: registered keys plus every
adjacency target. -/
def nodesList (g : ExecutionGraph) : List OperatorId :=
  g.keys ++ (g.adj.map Prod.snd).flatten

/-- Fuel that provably suffices for the DFS recursion depth. -/
def dfsFuel (g : ExecutionGraph) : Nat := (nodesList g).length + 1

/-- The outer loop of `getTopologicalOrder` / `detectCycles`: DFS from
every unvisited registered operator, aborting on the first cycle. -/
def dfsLoop (g : ExecutionGraph) : List OperatorId → DfsState → Bool × DfsState
  | [], s => (false, s)
  | k :: ks, s =>
    if k ∈ s.visited then dfsLoop g ks s
    else
      match topologicalSortUtil g (dfsFuel g) k s with
      | (true, s') => (true, s')
      | (false, s') => dfsLoop g ks s'

/-- `ExecutionGraph::detectCycles`: same DFS, result vector discarded. -/
def detectCycles (g : ExecutionGraph) : Bool :=
  (dfsLoop g g.keys ⟨[], [], []⟩).1

/-- `ExecutionGraph::isValid`. -/
def isValid (g : ExecutionGraph) : Bool := !detectCycles g

/-- `ExecutionGraph::validate` (alias for `isValid`). -/
def validate (g : ExecutionGraph) : Bool := isValid g

/-- `ExecutionGraph::getTopologicalOrder`: empty vector on cycle,
otherwise the reversed DFS post-order. -/
def getTopologicalOrder (g : ExecutionGraph) : List OperatorId :=
  if (dfsLoop g g.keys ⟨[], [], []⟩).1 then []
  else (dfsLoop g g.keys ⟨[], [], []⟩).2.order.reverse

/-- The validity criterion exactly as the spec words it:
"`validate() -> bool`: true iff `topological_order` yields a non-empty
vector OR the graph is empty." -/
def validateSpec (g : ExecutionGraph) : Bool :=
  !(getTopologicalOrder g).isEmpty || g.keys.isEmpty

/-! ### Functions (function/*.cpp)

`FunctionResponse` stores `std::vector<std::unique_ptr<MultiModalMessage>>`;
we embed it as a list of optional messages over an abstract message type
`μ` (a stored null pointer is `none`). -/

abbrev FunctionResponse (μ : Type) := List (Option μ)

/-- `MapFunction` (map_function.cpp): holds an optional
`MapFunc = std::function<void(std::unique_ptr<MultiModalMessage>&)>`.
The C++ callback mutates the owned pointer in place and may reset it to
null; we embed it as `μ → Option μ` on the non-null values it is invoked
on. -/
structure MapFunction (μ : Type) where
  name : String
  map_func : Option (μ → Option μ)

/-- `MapFunction::execute`: for each input message, if both the callback
and the message are set, applies the callback and moves the (possibly
nulled) pointer into the result; otherwise the position is skipped. -/
def MapFunction.execute {μ : Type} (f : MapFunction μ) (response : FunctionResponse μ) :
    FunctionResponse μ :=
  response.filterMap (fun message =>
    match f.map_func, message with
    | some mf, some x => some (mf x)
    | _, _ => none)

/-- `FilterFunction` (filter_function.cpp): optional predicate
`FilterFunc` on messages. -/
structure FilterFunction (μ : Type) where
  name : String
  filter_func : Option (μ → Bool)

/-- `FilterFunction::execute`: keeps a message iff it is non-null and
either no predicate is set or the predicate accepts it. -/
def FilterFunction.execute {μ : Type} (f : FilterFunction μ) (response : FunctionResponse μ) :
    FunctionResponse μ :=
  response.filterMap (fun message =>
    match message with
    | some x =>
      match f.filter_func with
      | none => some (some x)
      | some p => if p x then some (some x) else none
    | none => none)

/-- `SinkFunction` (sink_function.cpp): consumes messages via an external
side-effecting callback (I/O is outside the verified core), returning an
empty response. Only the name is observable here. -/
structure SinkFunction (μ : Type) where
  name : String

/-- `SinkFunction::execute`: consumes every message and returns an empty
response. -/
def SinkFunction.execute {μ : Type} (_f : SinkFunction μ) (_response : FunctionResponse μ) :
    FunctionResponse μ := []

/-- The concrete `Function` subclasses that do not override the two-input
`execute` overload (function.h declares it only on the base). -/
inductive FuncClass where
  | base | source | map | filter | sink
deriving DecidableEq, Repr

/-- Virtual dispatch of `execute(left, right)`: every non-join subclass
falls through to `Function::execute(FunctionResponse&, FunctionResponse&)`
(function.cpp), which unconditionally throws. -/
def Function.executeDual {μ : Type} (c : FuncClass) (name : String)
    (_left _right : FunctionResponse μ) : Except String (FunctionResponse μ) :=
  match c with
  | .base | .source | .map | .filter | .sink =>
    .error ("Dual-input execute not implemented for function: " ++ name)

/-- `Function::execute(FunctionResponse&)` base implementation: moves
every message of the input into the result unchanged and clears the
input. -/
def Function.executeBase {μ : Type} (response : FunctionResponse μ) : FunctionResponse μ :=
  response

/-! ### Operators (operator/*.cpp)

`operator/response.h` is not in the tree; modelled from the spec:
`process(input, slot)` is "invoked by the engine with zero (source) or
one (non-source) input message", and `Response` exposes `hasMessage`,
`getMessage` (an owned, possibly null pointer) and `getMessages`.
Emissions (`emit(0, Response(msg))`) are returned as the list of emitted
messages so the caller can observe them. -/

structure Response (μ : Type) where
  messages : List (Option μ)

def Response.hasMessage {μ : Type} (r : Response μ) : Bool := !r.messages.isEmpty

def Response.getMessage {μ : Type} (r : Response μ) : Option μ := r.messages.headD none

def Response.getMessages {μ : Type} (r : Response μ) : List (Option μ) := r.messages

/-- A `process` call's observable outcome: thrown error, or returned
boolean together with the updated operator and the messages emitted to
slot 0 during the call. -/
abbrev ProcessResult (op μ : Type) := Except String (Bool × op × List μ)

/-- `MapOperator` (map_operator.cpp): composition shell around an
optional `MapFunction`, with processed/output counters from the
`Operator` base. -/
structure MapOperator (μ : Type) where
  map_function : Option (MapFunction μ)
  processed_count : Nat
  output_count : Nat

/-- `MapOperator::process`: throws if no `MapFunction` is set; returns
false on a missing/null input message; otherwise runs the function on a
singleton response, emits every non-null output message, bumps the
counters and returns whether anything was emitted. -/
def MapOperator.process {μ : Type} (op : MapOperator μ) (input_record : Response μ)
    (_slot : Int) : ProcessResult (MapOperator μ) μ :=
  match op.map_function with
  | none => .error "MapOperator: No MapFunction set"
  | some f =>
    if !input_record.hasMessage then .ok (false, op, [])
    else
      match input_record.getMessage with
      | none => .ok (false, op, [])
      | some input_message =>
        let function_output := f.execute [some input_message]
        let emitted := function_output.filterMap id
        .ok (!emitted.isEmpty,
             { op with processed_count := op.processed_count + 1
                     , output_count := op.output_count + emitted.length },
             emitted)

/-- `FilterOperator` (filter_operator.cpp). -/
structure FilterOperator (μ : Type) where
  filter_function : Option (FilterFunction μ)
  processed_count : Nat
  output_count : Nat

/-- `FilterOperator::process`: same shell as `MapOperator::process`,
delegating to the contained `FilterFunction`. -/
def FilterOperator.process {μ : Type} (op : FilterOperator μ) (input_record : Response μ)
    (_slot : Int) : ProcessResult (FilterOperator μ) μ :=
  match op.filter_function with
  | none => .error "FilterOperator: No FilterFunction set"
  | some f =>
    if !input_record.hasMessage then .ok (false, op, [])
    else
      match input_record.getMessage with
      | none => .ok (false, op, [])
      | some input_message =>
        let function_output := f.execute [some input_message]
        let emitted := function_output.filterMap id
        .ok (!emitted.isEmpty,
             { op with processed_count := op.processed_count + 1
                     , output_count := op.output_count + emitted.length },
             emitted)

/-- `SinkOperator` (sink_operator.cpp). -/
structure SinkOperator (μ : Type) where
  sink_function : Option (SinkFunction μ)
  processed_count : Nat
  output_count : Nat

/-- `SinkOperator::process`: throws if no `SinkFunction` is set; returns
false on a missing/null input message; otherwise feeds the message to the
sink function (whose response is discarded), bumps the processed counter,
emits nothing and returns true. -/
def SinkOperator.process {μ : Type} (op : SinkOperator μ) (input_record : Response μ)
    (_slot : Int) : ProcessResult (SinkOperator μ) μ :=
  match op.sink_function with
  | none => .error "SinkOperator: No SinkFunction set"
  | some f =>
    if !input_record.hasMessage then .ok (false, op, [])
    else
      match input_record.getMessage with
      | none => .ok (false, op, [])
      | some input_message =>
        let _ := f.execute [some input_message]
        .ok (true, { op with processed_count := op.processed_count + 1 }, [])

/-- `TerminalSinkOperator` (terminal_sink_operator.cpp): its constructor
rejects a null callback, so the function slot is always set; the callback
itself performs external I/O and is embedded as opaque. -/
structure TerminalSinkOperator (μ : Type) where
  name : String
  processed_count : Nat
  output_count : Nat

/-- `TerminalSinkOperator::process`: bumps the processed counter, feeds
every non-null message of the record to the callback, bumps the output
counter and returns true; it emits nothing. (The catch-all path that
returns false is unreachable here because embedded callbacks are total.) -/
def TerminalSinkOperator.process {μ : Type} (op : TerminalSinkOperator μ)
    (_input_record : Response μ) (_slot : Int) : ProcessResult (TerminalSinkOperator μ) μ :=
  .ok (true,
       { op with processed_count := op.processed_count + 1
               , output_count := op.output_count + 1 },
       [])

/-! ### StreamEngine (stream_engine.cpp) -/

/-- Per-graph lifecycle states (engine/stream_engine.h). -/
inductive GraphState where
  | UNKNOWN | SUBMITTED | RUNNING | COMPLETED | STOPPED
deriving DecidableEq, Repr

/-- Embedding of `StreamEngine`: submitted graphs and their states as
association maps, plus the monotonically increasing `next_graph_id_`.
(`execution_mode_` never influences the verified behaviour.) -/
structure StreamEngine where
  submitted_graphs : List (GraphId × ExecutionGraph)
  graph_states : List (GraphId × GraphState)
  next_graph_id : GraphId
deriving DecidableEq, Repr

/-- A freshly constructed `StreamEngine`. -/
def freshEngine : StreamEngine := ⟨[], [], 0⟩

/-- `graph_states_[id] = st`. -/
def setState (e : StreamEngine) (id : GraphId) (st : GraphState) : StreamEngine :=
  { e with graph_states := alistSet e.graph_states id st }

/-- `StreamEngine::getGraphState`: `UNKNOWN` for unregistered ids. -/
def getGraphState (e : StreamEngine) (id : GraphId) : GraphState :=
  (alistGet? e.graph_states id).getD .UNKNOWN

/-- `StreamEngine::submitGraph`: throws on a null graph or failed
validation; otherwise registers the graph under the fresh id with state
`SUBMITTED` and returns the id. A null `std::shared_ptr` argument is
`none`. -/
def submitGraph (e : StreamEngine) (graph : Option ExecutionGraph) :
    Except String (GraphId × StreamEngine) :=
  match graph with
  | none => .error "Invalid execution graph submitted - null graph"
  | some g =>
    if !validate g then
      .error "Invalid execution graph submitted - validation failed"
    else
      let id := e.next_graph_id
      .ok (id, { submitted_graphs := alistSet e.submitted_graphs id g
               , graph_states := alistSet e.graph_states id .SUBMITTED
               , next_graph_id := id + 1 })

/-- `StreamEngine::executeGraph`: looks the graph up (throwing when the
id is unknown), sets its state to `RUNNING`, computes the topological
order, throws "Graph contains cycles or is invalid" when that order is
empty, otherwise iterates the order (execution is simulated) and sets the
state to `COMPLETED`. A thrown error carries the engine state at the
throw point, since `graph_states_` mutations before the throw persist. -/
def executeGraph (e : StreamEngine) (graph_id : GraphId) :
    Except (String × StreamEngine) StreamEngine :=
  match alistGet? e.submitted_graphs graph_id with
  | none => .error ("Graph ID " ++ toString graph_id ++ " not found", e)
  | some g =>
    let e1 := setState e graph_id .RUNNING
    let topo := getTopologicalOrder g
    if topo.isEmpty then .error ("Graph contains cycles or is invalid", e1)
    else .ok (setState e1 graph_id .COMPLETED)

/-- `StreamEngine::executeGraphAsync`: throws when the id is unknown,
otherwise sets the state to `RUNNING` and (in this demonstration
implementation) immediately to `COMPLETED`. -/
def executeGraphAsync (e : StreamEngine) (graph_id : GraphId) :
    Except String StreamEngine :=
  match alistGet? e.submitted_graphs graph_id with
  | none => .error ("Graph ID " ++ toString graph_id ++ " not found")
  | some _ => .ok (setState (setState e graph_id .RUNNING) graph_id .COMPLETED)

/-- `StreamEngine::stopGraph`: a no-op when the id is not registered,
otherwise unconditionally sets the state to `STOPPED`. -/
def stopGraph (e : StreamEngine) (graph_id : GraphId) : StreamEngine :=
  match alistGet? e.submitted_graphs graph_id with
  | none => e
  | some _ => setState e graph_id .STOPPED

/-! ### Specification predicates -/

/-- Graphs reachable through the `ExecutionGraph` construction interface
when `connectOperators` is only invoked on registered endpoints (as the
spec's connect contract assumes: "no validation at insert time beyond
endpoint existence"). -/
inductive BuiltWF : ExecutionGraph → Prop where
  | base : BuiltWF emptyGraph
  | add {g : ExecutionGraph} : BuiltWF g → BuiltWF (addOperator g).2
  | connect {g : ExecutionGraph} {s t : OperatorId} :
      BuiltWF g → s ∈ g.keys → t ∈ g.keys → BuiltWF (connectOperators g s t)
  | remove {g : ExecutionGraph} {id : OperatorId} :
      BuiltWF g → BuiltWF (removeOperator g id)

/-- Multiset transpose of the two adjacency maps. -/
def Transpose (g : ExecutionGraph) : Prop :=
  ∀ a b, List.count b (getSuccessors g a) = List.count a (getPredecessors g b)

/-- Every id occurring anywhere in the graph is below `next_operator_id_`. -/
def BoundedG (g : ExecutionGraph) : Prop :=
  (∀ x ∈ g.keys, x < g.next_operator_id)
  ∧ (∀ p ∈ g.adj, p.1 < g.next_operator_id ∧ ∀ y ∈ p.2, y < g.next_operator_id)
  ∧ (∀ p ∈ g.radj, p.1 < g.next_operator_id ∧ ∀ y ∈ p.2, y < g.next_operator_id)

/-- `a` occurs strictly before `b` in the list `l`. -/
def Before (l : List OperatorId) (a b : OperatorId) : Prop :=
  ∃ u v w, l = u ++ a :: v ++ b :: w

/-- The DFS state invariant: the post-order and the recursion stack are
duplicate-free, partition the visited set, and every member of the
post-order was appended after all of its successors. -/
structure DfsInv (g : ExecutionGraph) (s : DfsState) : Prop where
  nodupOrder : s.order.Nodup
  nodupStack : s.recStack.Nodup
  orderVisited : ∀ x ∈ s.order, x ∈ s.visited
  stackVisited : ∀ x ∈ s.recStack, x ∈ s.visited
  visitedSplit : ∀ x ∈ s.visited, x ∈ s.order ∨ x ∈ s.recStack
  disj : ∀ x ∈ s.order, x ∉ s.recStack
  edges : ∀ x ∈ s.order, ∀ y ∈ getSuccessors g x, Before s.order y x

/-- Postcondition of a `topologicalSortUtil` call that returns `false`. -/
def SortPost (g : ExecutionGraph) (id : OperatorId) (s s' : DfsState) : Prop :=
  DfsInv g s' ∧ s'.recStack = s.recStack
  ∧ (∃ t, s'.order = s.order ++ t)
  ∧ id ∈ s'.order
  ∧ (∀ x ∈ s.visited, x ∈ s'.visited)
  ∧ (∀ x ∈ s'.visited, x ∈ s.visited ∨ x = id ∨ ∃ a, x ∈ getSuccessors g a)

/-- Postcondition of a successor sweep that returns `false`. -/
def VisitPost (g : ExecutionGraph) (ys : List OperatorId) (s s' : DfsState) : Prop :=
  DfsInv g s' ∧ s'.recStack = s.recStack
  ∧ (∃ t, s'.order = s.order ++ t)
  ∧ (∀ y ∈ ys, y ∈ s'.order)
  ∧ (∀ x ∈ s.visited, x ∈ s'.visited)
  ∧ (∀ x ∈ s'.visited, x ∈ s.visited ∨ x ∈ ys ∨ ∃ a, x ∈ getSuccessors g a)

/-- Postcondition of a `dfsLoop` run that found no cycle. -/
def LoopPost (g : ExecutionGraph) (ks : List OperatorId) (s s' : DfsState) : Prop :=
  DfsInv g s' ∧ s'.recStack = s.recStack
  ∧ (∃ t, s'.order = s.order ++ t)
  ∧ (∀ k ∈ ks, k ∈ s'.visited)
  ∧ (∀ x ∈ s.visited, x ∈ s'.visited)
  ∧ (∀ x ∈ s'.visited, x ∈ s.visited ∨ x ∈ ks ∨ ∃ a, x ∈ getSuccessors g a)

/-- Nodes of the DFS universe not yet visited. -/
def unseenV (g : ExecutionGraph) (visited : List OperatorId) : Nat :=
  ((nodesList g).toFinset \ visited.toFinset).card

/-! ### Association-list lemmas -/

theorem find?_key_filter {β : Type} (m : List (Nat × β)) (k a : Nat) (h : a ≠ k) :
    List.find? (fun p => p.1 == a) (m.filter (fun p => p.1 != k)) =
      List.find? (fun p => p.1 == a) m := by
  induction m with
  | nil => rfl
  | cons p t ih =>
    by_cases hp : p.1 = k
    · have h2 : p.1 ≠ a := by rw [hp]; exact Ne.symm h
      rw [List.filter_cons_of_neg (by simp [hp]), List.find?_cons_of_neg _ (by simp [h2]), ih]
    · rw [List.filter_cons_of_pos (by simp [hp])]
      by_cases hpa : p.1 = a
      · rw [List.find?_cons_of_pos _ (by simp [hpa]), List.find?_cons_of_pos _ (by simp [hpa])]
      · rw [List.find?_cons_of_neg _ (by simp [hpa]), List.find?_cons_of_neg _ (by simp [hpa]),
          ih]

theorem alistGet?_set {β : Type} (m : List (Nat × β)) (k a : Nat) (v : β) :
    alistGet? (alistSet m k v) a = if a = k then some v else alistGet? m a := by
  unfold alistSet alistGet?
  by_cases h : a = k
  · rw [if_pos h, List.find?_cons_of_pos _ (by simp [h])]
    rfl
  · rw [if_neg h, List.find?_cons_of_neg _ (by simp [Ne.symm h]), find?_key_filter _ _ _ h]

theorem mapLookup_set (m : List (Nat × List Nat)) (k a : Nat) (v : List Nat) :
    mapLookup (alistSet m k v) a = if a = k then v else mapLookup m a := by
  unfold mapLookup
  rw [alistGet?_set]
  by_cases h : a = k
  · rw [if_pos h, if_pos h]
    rfl
  · rw [if_neg h, if_neg h]

/-- Every element produced by `mapLookup` comes from some stored entry. -/
theorem mapLookup_mem_entry {m : List (Nat × List Nat)} {a y : Nat}
    (h : y ∈ mapLookup m a) : ∃ p ∈ m, p.1 = a ∧ y ∈ p.2 := by
  unfold mapLookup alistGet? at h
  cases hf : m.find? (fun p => p.1 == a) with
  | none => rw [hf] at h; simp at h
  | some p =>
    rw [hf] at h
    have h' : y ∈ p.2 := h
    have hmem := List.mem_of_find?_eq_some hf
    have hkey := List.find?_some hf
    exact ⟨p, hmem, by simpa using hkey, h'⟩

/-! ### Characterisations of the `process` shells -/

/-- Case split of `MapOperator::process` with a function present, by the
shape of the input record. -/
theorem mapProcess_eq {μ : Type} (f : MapFunction μ) (p o : Nat) (input : Response μ)
    (slot : Int) :
    MapOperator.process ⟨some f, p, o⟩ input slot =
      match input.messages with
      | [] => .ok (false, ⟨some f, p, o⟩, [])
      | none :: _ => .ok (false, ⟨some f, p, o⟩, [])
      | some m :: _ =>
        .ok (!((f.execute [some m]).filterMap id).isEmpty,
             ⟨some f, p + 1, o + ((f.execute [some m]).filterMap id).length⟩,
             (f.execute [some m]).filterMap id) := by
  obtain ⟨msgs⟩ := input
  cases msgs with
  | nil => rfl
  | cons m t => cases m <;> rfl

/-- Case split of `FilterOperator::process` with a function present. -/
theorem filterProcess_eq {μ : Type} (f : FilterFunction μ) (p o : Nat) (input : Response μ)
    (slot : Int) :
    FilterOperator.process ⟨some f, p, o⟩ input slot =
      match input.messages with
      | [] => .ok (false, ⟨some f, p, o⟩, [])
      | none :: _ => .ok (false, ⟨some f, p, o⟩, [])
      | some m :: _ =>
        .ok (!((f.execute [some m]).filterMap id).isEmpty,
             ⟨some f, p + 1, o + ((f.execute [some m]).filterMap id).length⟩,
             (f.execute [some m]).filterMap id) := by
  obtain ⟨msgs⟩ := input
  cases msgs with
  | nil => rfl
  | cons m t => cases m <;> rfl

/-- Case split of `SinkOperator::process` with a function present. -/
theorem sinkProcess_eq {μ : Type} (f : SinkFunction μ) (p o : Nat) (input : Response μ)
    (slot : Int) :
    SinkOperator.process ⟨some f, p, o⟩ input slot =
      match input.messages with
      | [] => .ok (false, ⟨some f, p, o⟩, [])
      | none :: _ => .ok (false, ⟨some f, p, o⟩, [])
      | some _ :: _ => .ok (true, ⟨some f, p + 1, o⟩, []) := by
  obtain ⟨msgs⟩ := input
  cases msgs with
  | nil => rfl
  | cons m t => cases m <;> rfl

/-! ### C1: process on an empty function slot -/

/-- C1 (counterexample): with an empty function slot, `process` on each of
`MapOperator`, `FilterOperator` and `SinkOperator` throws a runtime error
instead of signalling a configuration error and returning false; in
particular it never returns at all. -/
theorem process_nullFunction_counterexample :
    MapOperator.process (⟨none, 0, 0⟩ : MapOperator Nat) ⟨[some 0]⟩ 0
        = .error "MapOperator: No MapFunction set"
    ∧ FilterOperator.process (⟨none, 0, 0⟩ : FilterOperator Nat) ⟨[some 0]⟩ 0
        = .error "FilterOperator: No FilterFunction set"
    ∧ SinkOperator.process (⟨none, 0, 0⟩ : SinkOperator Nat) ⟨[some 0]⟩ 0
        = .error "SinkOperator: No SinkFunction set"
    ∧ ∀ r : Bool × MapOperator Nat × List Nat,
        MapOperator.process (⟨none, 0, 0⟩ : MapOperator Nat) ⟨[some 0]⟩ 0 ≠ .ok r :=
  ⟨rfl, rfl, rfl, fun _ h => Except.noConfusion h⟩

/-- C1 (amended): for every operator variant (Map, Filter, Sink), if the
contained function slot is empty when `process` is invoked, `process`
throws a runtime error naming the missing function (it does not return
false, and the exception propagates to the caller); when the slot is
filled, `process` returns normally for every input. -/
theorem process_nullFunction_amended {μ : Type} (input : Response μ) (slot : Int)
    (p o : Nat) :
    MapOperator.process (⟨none, p, o⟩ : MapOperator μ) input slot
        = .error "MapOperator: No MapFunction set"
    ∧ FilterOperator.process (⟨none, p, o⟩ : FilterOperator μ) input slot
        = .error "FilterOperator: No FilterFunction set"
    ∧ SinkOperator.process (⟨none, p, o⟩ : SinkOperator μ) input slot
        = .error "SinkOperator: No SinkFunction set"
    ∧ (∀ f : MapFunction μ, ∃ r, MapOperator.process ⟨some f, p, o⟩ input slot = .ok r)
    ∧ (∀ f : FilterFunction μ, ∃ r, FilterOperator.process ⟨some f, p, o⟩ input slot = .ok r)
    ∧ (∀ f : SinkFunction μ, ∃ r, SinkOperator.process ⟨some f, p, o⟩ input slot = .ok r) := by
  refine ⟨rfl, rfl, rfl, fun f => ?_, fun f => ?_, fun f => ?_⟩
  · rw [mapProcess_eq]
    cases hm : input.messages with
    | nil => exact ⟨_, rfl⟩
    | cons m t => cases m <;> exact ⟨_, rfl⟩
  · rw [filterProcess_eq]
    cases hm : input.messages with
    | nil => exact ⟨_, rfl⟩
    | cons m t => cases m <;> exact ⟨_, rfl⟩
  · rw [sinkProcess_eq]
    cases hm : input.messages with
    | nil => exact ⟨_, rfl⟩
    | cons m t => cases m <;> exact ⟨_, rfl⟩

/-! ### C3: return value of process vs. emissions -/

/-- C3 (counterexample): a sink operator that consumes a message emits
nothing yet returns true, so "returns true iff at least one downstream
message was emitted" fails on sinks. -/
theorem sink_returns_true_counterexample :
    SinkOperator.process (⟨some ⟨"collector"⟩, 0, 0⟩ : SinkOperator Nat) ⟨[some 0]⟩ 0
        = .ok (true, ⟨some ⟨"collector"⟩, 1, 0⟩, [])
    ∧ ¬ (true = true ↔ ([] : List Nat) ≠ []) :=
  ⟨rfl, by simp⟩

/-- C3 (amended): Map and Filter operators return true iff at least one
downstream message was emitted during the invocation; a Sink operator
never emits but returns true exactly when it consumed a usable (present,
non-null) input message; a TerminalSink operator never emits and returns
true unconditionally. -/
theorem process_emission_amended {μ : Type} (input : Response μ) (slot : Int) :
    (∀ (f : MapFunction μ) (p o : Nat) (b : Bool) (op' : MapOperator μ) (em : List μ),
        MapOperator.process ⟨some f, p, o⟩ input slot = .ok (b, op', em) →
          (b = true ↔ em ≠ []))
    ∧ (∀ (f : FilterFunction μ) (p o : Nat) (b : Bool) (op' : FilterOperator μ) (em : List μ),
        FilterOperator.process ⟨some f, p, o⟩ input slot = .ok (b, op', em) →
          (b = true ↔ em ≠ []))
    ∧ (∀ (f : SinkFunction μ) (p o : Nat) (b : Bool) (op' : SinkOperator μ) (em : List μ),
        SinkOperator.process ⟨some f, p, o⟩ input slot = .ok (b, op', em) →
          em = [] ∧ (b = true ↔ input.hasMessage = true ∧ input.getMessage.isSome = true))
    ∧ (∀ op : TerminalSinkOperator μ, ∃ op',
        TerminalSinkOperator.process op input slot = .ok (true, op', [])) := by
  refine ⟨fun f p o b op' em h => ?_, fun f p o b op' em h => ?_,
          fun f p o b op' em h => ?_, fun op => ⟨_, rfl⟩⟩
  · rw [mapProcess_eq] at h
    cases hm : input.messages with
    | nil =>
      rw [hm] at h
      obtain ⟨hb, -, hem⟩ : false = b ∧ _ ∧ [] = em := by simpa using h
      simp [← hb, ← hem]
    | cons m t =>
      cases m with
      | none =>
        rw [hm] at h
        obtain ⟨hb, -, hem⟩ : false = b ∧ _ ∧ [] = em := by simpa using h
        simp [← hb, ← hem]
      | some x =>
        rw [hm] at h
        obtain ⟨hb, -, hem⟩ :
            (!((f.execute [some x]).filterMap id).isEmpty) = b ∧ _ ∧
              (f.execute [some x]).filterMap id = em := by simpa using h
        rw [← hb, ← hem]
        simp [List.isEmpty_iff]
  · rw [filterProcess_eq] at h
    cases hm : input.messages with
    | nil =>
      rw [hm] at h
      obtain ⟨hb, -, hem⟩ : false = b ∧ _ ∧ [] = em := by simpa using h
      simp [← hb, ← hem]
    | cons m t =>
      cases m with
      | none =>
        rw [hm] at h
        obtain ⟨hb, -, hem⟩ : false = b ∧ _ ∧ [] = em := by simpa using h
        simp [← hb, ← hem]
      | some x =>
        rw [hm] at h
        obtain ⟨hb, -, hem⟩ :
            (!((f.execute [some x]).filterMap id).isEmpty) = b ∧ _ ∧
              (f.execute [some x]).filterMap id = em := by simpa using h
        rw [← hb, ← hem]
        simp [List.isEmpty_iff]
  · rw [sinkProcess_eq] at h
    cases hm : input.messages with
    | nil =>
      rw [hm] at h
      obtain ⟨hb, -, hem⟩ : false = b ∧ _ ∧ [] = em := by simpa using h
      constructor
      · exact hem.symm
      · rw [← hb]
        simp [Response.hasMessage, hm]
    | cons m t =>
      cases m with
      | none =>
        rw [hm] at h
        obtain ⟨hb, -, hem⟩ : false = b ∧ _ ∧ [] = em := by simpa using h
        constructor
        · exact hem.symm
        · rw [← hb]
          simp [Response.getMessage, hm]
      | some x =>
        rw [hm] at h
        obtain ⟨hb, -, hem⟩ : true = b ∧ _ ∧ [] = em := by simpa using h
        constructor
        · exact hem.symm
        · rw [← hb]
          simp [Response.hasMessage, Response.getMessage, hm]

/-- Witness for `process_emission_amended`: a map operator with the
identity function on a one-message record emitted `[0]` and returned
true; a sink operator on the same record emitted nothing and returned
true. -/
theorem process_emission_amended_witness :
    (true = true ↔ ([0] : List Nat) ≠ [])
    ∧ ([] = ([] : List Nat)
        ∧ (true = true ↔ (⟨[some 0]⟩ : Response Nat).hasMessage = true
            ∧ (⟨[some 0]⟩ : Response Nat).getMessage.isSome = true)) :=
  ⟨(process_emission_amended (⟨[some 0]⟩ : Response Nat) 0).1
      ⟨"id", some some⟩ 0 0 true ⟨some ⟨"id", some some⟩, 1, 1⟩ [0] rfl,
   (process_emission_amended (⟨[some 0]⟩ : Response Nat) 0).2.2.1
      ⟨"collector"⟩ 0 0 true ⟨some ⟨"collector"⟩, 1, 0⟩ [] rfl⟩

/-! ### C9: MapFunction::execute cardinality -/

/-- C9 (counterexample): a map callback that nulls its message leaves a
null entry in the output (the position is not removed), and an unset
callback removes every position. -/
theorem mapFunction_execute_counterexample :
    MapFunction.execute (⟨"f", some (fun _ => none)⟩ : MapFunction Nat) [some 0] = [none]
    ∧ MapFunction.execute (⟨"f", some (fun _ => none)⟩ : MapFunction Nat) [some 0] ≠ []
    ∧ MapFunction.execute (⟨"g", none⟩ : MapFunction Nat) [some 0, some 1] = [] :=
  ⟨rfl, fun h => List.noConfusion h, rfl⟩

/-- C9 (amended): when a map callback is set, `execute` returns one output
per input position whose message is non-null, in input order, namely the
callback's result for that message — retained even when the result is
null; positions whose input message is null are removed; when no callback
is set the output is empty. -/
theorem mapFunction_execute_amended {μ : Type} (name : String) (mf : μ → Option μ)
    (response : FunctionResponse μ) :
    MapFunction.execute ⟨name, some mf⟩ response = (response.filterMap id).map mf
    ∧ MapFunction.execute ⟨name, none⟩ response = []
    ∧ (MapFunction.execute ⟨name, some mf⟩ response).length
        = (response.filterMap id).length := by
  have h1 : MapFunction.execute ⟨name, some mf⟩ response = (response.filterMap id).map mf := by
    induction response with
    | nil => rfl
    | cons m t ih =>
      cases m with
      | none => simpa [MapFunction.execute, List.filterMap_cons] using ih
      | some x =>
        simp only [MapFunction.execute, List.filterMap_cons, List.map_cons, id_eq] at ih ⊢
        rw [ih]
  refine ⟨h1, ?_, by rw [h1, List.length_map]⟩
  clear h1
  induction response with
  | nil => rfl
  | cons m t ih =>
    cases m <;> simp only [MapFunction.execute, List.filterMap_cons] at ih ⊢ <;> exact ih

/-! ### C10: the two-input execute overload -/

/-- C10: for every `Function` subclass that does not override the
two-input overload (base, Source, Map, Filter, Sink), `execute(left,
right)` unconditionally throws, for all inputs; the single-input base
implementation moves every message of the input into the result
unchanged. -/
theorem function_dual_base_spec {μ : Type} (c : FuncClass) (name : String)
    (left right : FunctionResponse μ) :
    Function.executeDual c name left right
      = .error ("Dual-input execute not implemented for function: " ++ name)
    ∧ ∀ response : FunctionResponse μ, Function.executeBase response = response := by
  refine ⟨?_, fun _ => rfl⟩
  cases c <;> rfl

/-! ### C7: submitGraph -/

/-- Unfolding of `submitGraph` on a non-null graph. -/
theorem submitGraph_some (e : StreamEngine) (g : ExecutionGraph) :
    submitGraph e (some g) =
      if (!validate g) = true then
        .error "Invalid execution graph submitted - validation failed"
      else
        .ok (e.next_graph_id,
             ⟨alistSet e.submitted_graphs e.next_graph_id g,
              alistSet e.graph_states e.next_graph_id .SUBMITTED,
              e.next_graph_id + 1⟩) := rfl

/-- A successful submission returns the current `next_graph_id_` and
increments it. -/
theorem submitGraph_ok_next (e : StreamEngine) (graph : Option ExecutionGraph)
    (id : GraphId) (e' : StreamEngine) (h : submitGraph e graph = .ok (id, e')) :
    id = e.next_graph_id ∧ e'.next_graph_id = e.next_graph_id + 1 := by
  cases graph with
  | none => exact Except.noConfusion h
  | some g =>
    rw [submitGraph_some] at h
    by_cases hv : (!validate g) = true
    · rw [if_pos hv] at h
      exact Except.noConfusion h
    · rw [if_neg hv] at h
      obtain ⟨h1, h2⟩ : e.next_graph_id = id ∧
          (⟨alistSet e.submitted_graphs e.next_graph_id g,
            alistSet e.graph_states e.next_graph_id .SUBMITTED,
            e.next_graph_id + 1⟩ : StreamEngine) = e' := by
        have := h
        simp only [Except.ok.injEq, Prod.mk.injEq] at this
        exact this
      subst h1
      subst h2
      exact ⟨rfl, rfl⟩

/-- C7: `submitGraph` raises an error iff the graph is null or fails
validation; on success it records the graph under the fresh
`next_graph_id_` with state `SUBMITTED`, returns that id, and increments
the counter, so ids of successive successful submissions strictly
increase; under the engine invariant that all recorded ids are below
`next_graph_id_`, the assigned id is fresh. -/
theorem submitGraph_spec (e : StreamEngine) (graph : Option ExecutionGraph)
    (hb : ∀ p ∈ e.submitted_graphs, p.1 < e.next_graph_id) :
    ((∃ msg, submitGraph e graph = .error msg) ↔
        graph = none ∨ ∃ g, graph = some g ∧ validate g = false)
    ∧ (∀ g, graph = some g → validate g = true →
        ∃ e', submitGraph e graph = .ok (e.next_graph_id, e')
          ∧ e'.next_graph_id = e.next_graph_id + 1
          ∧ getGraphState e' e.next_graph_id = .SUBMITTED
          ∧ alistGet? e'.submitted_graphs e.next_graph_id = some g
          ∧ ∀ p ∈ e.submitted_graphs, p.1 ≠ e.next_graph_id)
    ∧ (∀ graph2 id1 id2 e1 e2, submitGraph e graph = .ok (id1, e1) →
        submitGraph e1 graph2 = .ok (id2, e2) → id1 < id2) := by
  refine ⟨?_, ?_, ?_⟩
  · constructor
    · rintro ⟨msg, hmsg⟩
      cases graph with
      | none => exact Or.inl rfl
      | some g =>
        refine Or.inr ⟨g, rfl, ?_⟩
        rw [submitGraph_some] at hmsg
        by_cases hv : (!validate g) = true
        · simpa using hv
        · rw [if_neg hv] at hmsg
          exact Except.noConfusion hmsg
    · rintro (rfl | ⟨g, rfl, hv⟩)
      · exact ⟨_, rfl⟩
      · refine ⟨"Invalid execution graph submitted - validation failed", ?_⟩
        rw [submitGraph_some, if_pos (by simp [hv])]
  · rintro g rfl hv
    refine ⟨⟨alistSet e.submitted_graphs e.next_graph_id g,
             alistSet e.graph_states e.next_graph_id .SUBMITTED,
             e.next_graph_id + 1⟩, ?_, rfl, ?_, ?_, ?_⟩
    · rw [submitGraph_some, if_neg (by simp [hv])]
    · show (alistGet? (alistSet e.graph_states e.next_graph_id .SUBMITTED)
          e.next_graph_id).getD .UNKNOWN = _
      rw [alistGet?_set]
      simp
    · show alistGet? (alistSet e.submitted_graphs e.next_graph_id g)
          e.next_graph_id = some g
      rw [alistGet?_set]
      simp
    · intro p hp
      exact Nat.ne_of_lt (hb p hp)
  · intro graph2 id1 id2 e1 e2 h1 h2
    obtain ⟨hid1, hnext1⟩ := submitGraph_ok_next e graph id1 e1 h1
    obtain ⟨hid2, -⟩ := submitGraph_ok_next e1 graph2 id2 e2 h2
    rw [hid1, hid2, hnext1, ← hid1]
    exact Nat.lt_succ_self id1

/-- Witness for `submitGraph_spec`: submitting the (valid) empty graph to
a fresh engine succeeds with id 0, state `SUBMITTED`, and counter 1. -/
theorem submitGraph_spec_witness :
    ∃ e', submitGraph freshEngine (some emptyGraph) = .ok (0, e')
      ∧ e'.next_graph_id = 0 + 1
      ∧ getGraphState e' 0 = .SUBMITTED
      ∧ alistGet? e'.submitted_graphs 0 = some emptyGraph
      ∧ ∀ p ∈ freshEngine.submitted_graphs, p.1 ≠ 0 :=
  (submitGraph_spec freshEngine (some emptyGraph) (by intro p hp; cases hp)).2.1
    emptyGraph rfl (by decide)

/-! ### C8: stopGraph -/

/-- C8 (counterexample): stopping a graph whose state is `COMPLETED`
changes the observable state to `STOPPED`, so `stopGraph` is not a no-op
on completed graphs. -/
theorem stopGraph_completed_counterexample :
    ∃ e1 e2, submitGraph freshEngine (some emptyGraph) = .ok (0, e1)
      ∧ executeGraphAsync e1 0 = .ok e2
      ∧ getGraphState e2 0 = .COMPLETED
      ∧ getGraphState (stopGraph e2 0) 0 = .STOPPED
      ∧ GraphState.COMPLETED ≠ GraphState.STOPPED :=
  ⟨⟨[(0, emptyGraph)], [(0, .SUBMITTED)], 1⟩,
   ⟨[(0, emptyGraph)], [(0, .COMPLETED)], 1⟩,
   rfl, rfl, rfl, rfl, by decide⟩

/-- C8 (amended): `stopGraph` on a registered graph unconditionally sets
the state to `STOPPED` (so it is a no-op exactly when the state is
already `STOPPED`); on an unregistered id it leaves the engine
unchanged. -/
theorem stopGraph_amended (e : StreamEngine) (graph_id : GraphId) :
    ((alistGet? e.submitted_graphs graph_id).isSome = true →
        getGraphState (stopGraph e graph_id) graph_id = .STOPPED)
    ∧ ((alistGet? e.submitted_graphs graph_id).isSome = false →
        stopGraph e graph_id = e)
    ∧ (getGraphState e graph_id = .STOPPED →
        getGraphState (stopGraph e graph_id) graph_id = getGraphState e graph_id) := by
  refine ⟨?_, ?_, ?_⟩
  · intro hreg
    unfold stopGraph
    cases hg : alistGet? e.submitted_graphs graph_id with
    | none => rw [hg] at hreg; exact Bool.noConfusion hreg
    | some g =>
      unfold getGraphState setState
      rw [alistGet?_set]
      simp
  · intro hunreg
    unfold stopGraph
    cases hg : alistGet? e.submitted_graphs graph_id with
    | none => rfl
    | some g => rw [hg] at hunreg; exact Bool.noConfusion hunreg
  · intro hstop
    unfold stopGraph
    cases hg : alistGet? e.submitted_graphs graph_id with
    | none => rfl
    | some g =>
      rw [hstop]
      unfold getGraphState setState
      rw [alistGet?_set]
      simp

/-- Witness for `stopGraph_amended`: on an engine holding graph 0 in
state `STOPPED`, stopping it again leaves the observable state
unchanged, and stopping the unregistered id 5 leaves the engine
unchanged. -/
theorem stopGraph_amended_witness :
    getGraphState
        (stopGraph (⟨[(0, emptyGraph)], [(0, .STOPPED)], 1⟩ : StreamEngine) 0) 0
      = getGraphState (⟨[(0, emptyGraph)], [(0, .STOPPED)], 1⟩ : StreamEngine) 0
    ∧ stopGraph (⟨[(0, emptyGraph)], [(0, .STOPPED)], 1⟩ : StreamEngine) 5
      = (⟨[(0, emptyGraph)], [(0, .STOPPED)], 1⟩ : StreamEngine) :=
  ⟨(stopGraph_amended ⟨[(0, emptyGraph)], [(0, .STOPPED)], 1⟩ 0).2.2 (by decide),
   (stopGraph_amended ⟨[(0, emptyGraph)], [(0, .STOPPED)], 1⟩ 5).2.1 (by decide)⟩

/-! ### C2: executing an empty graph -/

/-- C2: an empty graph validates and is accepted by `submitGraph`, but
`executeGraph` then throws "Graph contains cycles or is invalid" (the
empty topological order is indistinguishable from the cycle sentinel) and
leaves the graph in state `RUNNING`, contradicting the documented
no-op-to-`COMPLETED` behaviour. -/
theorem emptyGraph_executeGraph_bug :
    validate emptyGraph = true
    ∧ ∃ e1, submitGraph freshEngine (some emptyGraph) = .ok (0, e1)
        ∧ getGraphState e1 0 = .SUBMITTED
        ∧ executeGraph e1 0
            = .error ("Graph contains cycles or is invalid", setState e1 0 .RUNNING)
        ∧ getGraphState (setState e1 0 .RUNNING) 0 = .RUNNING
        ∧ GraphState.RUNNING ≠ GraphState.COMPLETED :=
  ⟨rfl, ⟨[(0, emptyGraph)], [(0, .SUBMITTED)], 1⟩,
   rfl, rfl, rfl, rfl, by decide⟩

/-! ### C6: forward/reverse adjacency transpose -/

theorem mapLookup_cons_eq (p : Nat × List Nat) (t : List (Nat × List Nat)) (a : Nat)
    (h : p.1 = a) : mapLookup (p :: t) a = p.2 := by
  unfold mapLookup alistGet?
  rw [List.find?_cons_of_pos _ (by simp [h])]
  rfl

theorem mapLookup_cons_ne (p : Nat × List Nat) (t : List (Nat × List Nat)) (a : Nat)
    (h : p.1 ≠ a) : mapLookup (p :: t) a = mapLookup t a := by
  unfold mapLookup alistGet?
  rw [List.find?_cons_of_neg _ (by simp [h])]

/-- Lookup after `removeOperator`'s erase-and-scrub of an adjacency map. -/
theorem mapLookup_scrub (m : List (Nat × List Nat)) (id a : Nat) :
    mapLookup ((m.filter (fun p => p.1 != id)).map
        (fun p => (p.1, p.2.filter (fun x => x != id)))) a
      = if a = id then [] else (mapLookup m a).filter (fun x => x != id) := by
  induction m with
  | nil =>
    by_cases h : a = id <;> simp [mapLookup, alistGet?, h]
  | cons p t ih =>
    by_cases hp : p.1 = id
    · rw [List.filter_cons_of_neg (by simp [hp]), ih]
      by_cases h : a = id
      · rw [if_pos h, if_pos h]
      · rw [if_neg h, if_neg h, mapLookup_cons_ne p t a (by rw [hp]; exact Ne.symm h)]
    · rw [List.filter_cons_of_pos (by simp [hp]), List.map_cons]
      by_cases h : a = p.1
      · rw [mapLookup_cons_eq (p.1, p.2.filter (fun x => x != id)) _ a h.symm,
          if_neg (by rw [h]; exact hp), mapLookup_cons_eq p t a h.symm]
      · rw [mapLookup_cons_ne (p.1, p.2.filter (fun x => x != id)) _ a (fun he => h he.symm),
          ih]
        by_cases hid : a = id
        · rw [if_pos hid, if_pos hid]
        · rw [if_neg hid, if_neg hid, mapLookup_cons_ne p t a (fun he => h he.symm)]

theorem count_filter_ne (l : List Nat) (b id : Nat) :
    List.count b (l.filter (fun x => x != id))
      = if b = id then 0 else List.count b l := by
  induction l with
  | nil => by_cases h : b = id <;> simp [h]
  | cons x t ih =>
    by_cases hx : x = id
    · rw [List.filter_cons_of_neg (by simp [hx]), ih]
      by_cases h : b = id
      · rw [if_pos h, if_pos h]
      · have hbx : (x == b) = false := beq_eq_false_iff_ne.mpr (fun he => h (he ▸ hx))
        rw [if_neg h, if_neg h, List.count_cons, hbx]
        simp
    · rw [List.filter_cons_of_pos (by simp [hx]), List.count_cons, List.count_cons, ih]
      by_cases h : b = id
      · have hbx : (x == b) = false := beq_eq_false_iff_ne.mpr (fun he => hx (he.trans h))
        rw [if_pos h, if_pos h, hbx]
        simp
      · rw [if_neg h, if_neg h]

theorem mapLookup_lt {m : List (Nat × List Nat)} {n : Nat}
    (hm : ∀ p ∈ m, p.1 < n ∧ ∀ y ∈ p.2, y < n) (a y : Nat)
    (hy : y ∈ mapLookup m a) : y < n := by
  obtain ⟨p, hp, -, hyp⟩ := mapLookup_mem_entry hy
  exact (hm p hp).2 y hyp

/-- The combined invariant: every well-formed construction sequence keeps
all ids bounded and the reverse adjacency the exact multiset transpose of
the forward adjacency. -/
theorem builtWF_bounded_transpose {g : ExecutionGraph} (hg : BuiltWF g) :
    BoundedG g ∧ Transpose g := by
  induction hg with
  | base =>
    refine ⟨⟨?_, ?_, ?_⟩, ?_⟩
    · intro x hx; cases hx
    · intro p hp; cases hp
    · intro p hp; cases hp
    · intro a b; rfl
  | add hprev ih =>
    obtain ⟨⟨hk, ha, hr⟩, ht⟩ := ih
    rename_i g'
    refine ⟨⟨?_, ?_, ?_⟩, ?_⟩
    · intro x hx
      rcases List.mem_append.1 hx with hx | hx
      · exact Nat.lt_succ_of_lt (hk x hx)
      · rcases List.mem_singleton.1 hx with rfl
        exact Nat.lt_succ_self _
    · intro p hp
      rcases List.mem_cons.1 hp with rfl | hp
      · exact ⟨Nat.lt_succ_self _, fun y hy => absurd hy (List.not_mem_nil y)⟩
      · have hp' := List.mem_of_mem_filter hp
        exact ⟨Nat.lt_succ_of_lt (ha p hp').1,
               fun y hy => Nat.lt_succ_of_lt ((ha p hp').2 y hy)⟩
    · intro p hp
      rcases List.mem_cons.1 hp with rfl | hp
      · exact ⟨Nat.lt_succ_self _, fun y hy => absurd hy (List.not_mem_nil y)⟩
      · have hp' := List.mem_of_mem_filter hp
        exact ⟨Nat.lt_succ_of_lt (hr p hp').1,
               fun y hy => Nat.lt_succ_of_lt ((hr p hp').2 y hy)⟩
    · intro a b
      show List.count b (mapLookup (alistSet g'.adj g'.next_operator_id []) a)
          = List.count a (mapLookup (alistSet g'.radj g'.next_operator_id []) b)
      rw [mapLookup_set, mapLookup_set]
      by_cases hA : a = g'.next_operator_id
      · rw [if_pos hA]
        by_cases hB : b = g'.next_operator_id
        · rw [if_pos hB]
          simp
        · rw [if_neg hB]
          have : a ∉ mapLookup g'.radj b := by
            intro hmem
            exact absurd (mapLookup_lt hr b a hmem) (by rw [hA]; exact Nat.lt_irrefl _)
          simp [List.count_eq_zero.2 this]
      · rw [if_neg hA]
        by_cases hB : b = g'.next_operator_id
        · rw [if_pos hB]
          have : b ∉ mapLookup g'.adj a := by
            intro hmem
            exact absurd (mapLookup_lt ha a b hmem) (by rw [hB]; exact Nat.lt_irrefl _)
          simp [List.count_eq_zero.2 this]
        · rw [if_neg hB]
          exact ht a b
  | connect hprev hs htmem ih =>
    obtain ⟨⟨hk, ha, hr⟩, ht⟩ := ih
    rename_i g' s t
    have hslt : s < g'.next_operator_id := hk s hs
    have htlt : t < g'.next_operator_id := hk t htmem
    refine ⟨⟨hk, ?_, ?_⟩, ?_⟩
    · intro p hp
      rcases List.mem_cons.1 hp with rfl | hp
      · refine ⟨hslt, fun y hy => ?_⟩
        rcases List.mem_append.1 hy with hy | hy
        · exact mapLookup_lt ha s y hy
        · rcases List.mem_singleton.1 hy with rfl
          exact htlt
      · exact ha p (List.mem_of_mem_filter hp)
    · intro p hp
      rcases List.mem_cons.1 hp with rfl | hp
      · refine ⟨htlt, fun y hy => ?_⟩
        rcases List.mem_append.1 hy with hy | hy
        · exact mapLookup_lt hr t y hy
        · rcases List.mem_singleton.1 hy with rfl
          exact hslt
      · exact hr p (List.mem_of_mem_filter hp)
    · intro a b
      have ht' : ∀ a b, List.count b (mapLookup g'.adj a)
          = List.count a (mapLookup g'.radj b) := ht
      show List.count b (mapLookup (alistSet g'.adj s (mapLookup g'.adj s ++ [t])) a)
          = List.count a (mapLookup (alistSet g'.radj t (mapLookup g'.radj t ++ [s])) b)
      rw [mapLookup_set, mapLookup_set]
      by_cases hA : a = s
      · rw [if_pos hA, hA]
        by_cases hB : b = t
        · rw [if_pos hB, hB, List.count_append, List.count_append, ht' s t]
          simp [List.count_cons]
        · rw [if_neg hB, List.count_append]
          have hbt : List.count b [t] = 0 := by
            have hbeq : (t == b) = false := beq_eq_false_iff_ne.mpr (fun he => hB he.symm)
            simp [List.count_cons, hbeq]
          rw [hbt, Nat.add_zero, ht' s b]
      · rw [if_neg hA]
        by_cases hB : b = t
        · rw [if_pos hB, hB, List.count_append]
          have has : List.count a [s] = 0 := by
            have haeq : (s == a) = false := beq_eq_false_iff_ne.mpr (fun he => hA he.symm)
            simp [List.count_cons, haeq]
          rw [has, Nat.add_zero, ht' a t]
        · rw [if_neg hB]
          exact ht' a b
  | remove hprev ih =>
    obtain ⟨⟨hk, ha, hr⟩, ht⟩ := ih
    rename_i g' id
    refine ⟨⟨?_, ?_, ?_⟩, ?_⟩
    · intro x hx
      exact hk x (List.mem_of_mem_filter hx)
    · intro p hp
      obtain ⟨q, hq, rfl⟩ := List.mem_map.1 hp
      have hq' := List.mem_of_mem_filter hq
      exact ⟨(ha q hq').1, fun y hy => (ha q hq').2 y (List.mem_of_mem_filter hy)⟩
    · intro p hp
      obtain ⟨q, hq, rfl⟩ := List.mem_map.1 hp
      have hq' := List.mem_of_mem_filter hq
      exact ⟨(hr q hq').1, fun y hy => (hr q hq').2 y (List.mem_of_mem_filter hy)⟩
    · intro a b
      show List.count b (mapLookup ((g'.adj.filter (fun p => p.1 != id)).map
            (fun p => (p.1, p.2.filter (fun x => x != id)))) a)
          = List.count a (mapLookup ((g'.radj.filter (fun p => p.1 != id)).map
            (fun p => (p.1, p.2.filter (fun x => x != id)))) b)
      rw [mapLookup_scrub, mapLookup_scrub]
      have ht' : ∀ a b, List.count b (mapLookup g'.adj a)
          = List.count a (mapLookup g'.radj b) := ht
      by_cases hA : a = id
      · rw [if_pos hA]
        by_cases hB : b = id
        · rw [if_pos hB]
          simp
        · rw [if_neg hB, count_filter_ne, if_pos hA]
          simp
      · rw [if_neg hA]
        by_cases hB : b = id
        · rw [if_pos hB, count_filter_ne, if_pos hB]
          simp
        · rw [if_neg hB, count_filter_ne, count_filter_ne, if_neg hB, if_neg hA]
          exact ht' a b

/-- C6 (counterexample): the sequence `connectOperators(5, 0)` then
`addOperator()` (which assigns id 0 and clobbers `radj[0]`) leaves
`0 ∈ forward[5]` with multiplicity 1 while `5 ∈ reverse[0]` has
multiplicity 0: the transpose invariant fails for unrestricted call
sequences. -/
theorem transpose_counterexample :
    List.count 0 (getSuccessors ((addOperator (connectOperators emptyGraph 5 0)).2) 5) = 1
    ∧ List.count 5 (getPredecessors ((addOperator (connectOperators emptyGraph 5 0)).2) 0) = 0
    ∧ (1 : Nat) ≠ 0 := by
  refine ⟨?_, ?_, ?_⟩ <;> decide

/-- C6 (amended): after any sequence of `addOperator`,
`connectOperators` and `removeOperator` calls in which every
`connectOperators` call joins already-registered operators, the reverse
adjacency is the exact multiset transpose of the forward adjacency. -/
theorem adjacency_transpose {g : ExecutionGraph} (hg : BuiltWF g) (a b : OperatorId) :
    List.count b (getSuccessors g a) = List.count a (getPredecessors g b) :=
  (builtWF_bounded_transpose hg).2 a b

/-- Witness for `adjacency_transpose`: the two-operator chain 0 → 1. -/
theorem adjacency_transpose_witness :
    List.count 1 (getSuccessors (connectOperators (addOperator (addOperator emptyGraph).2).2 0 1) 0)
      = List.count 0 (getPredecessors (connectOperators (addOperator (addOperator emptyGraph).2).2 0 1) 1) :=
  adjacency_transpose
    (BuiltWF.connect (BuiltWF.add (BuiltWF.add BuiltWF.base)) (by decide) (by decide)) 0 1

/-! ### DFS invariants for C4 and C5 -/

theorem Before.append_right {l : List OperatorId} {a b : OperatorId} (t : List OperatorId)
    (h : Before l a b) : Before (l ++ t) a b := by
  obtain ⟨u, v, w, rfl⟩ := h
  exact ⟨u, v, w ++ t, by simp⟩

theorem Before.snoc_of_mem {l : List OperatorId} {y x : OperatorId} (hy : y ∈ l) :
    Before (l ++ [x]) y x := by
  obtain ⟨u, v, rfl⟩ := List.append_of_mem hy
  exact ⟨u, v, [], by simp⟩

theorem Before.reverse {l : List OperatorId} {a b : OperatorId} (h : Before l a b) :
    Before l.reverse b a := by
  obtain ⟨u, v, w, rfl⟩ := h
  refine ⟨w.reverse, v.reverse, u.reverse, ?_⟩
  simp

/-- Entering a node preserves the DFS invariant. -/
theorem DfsInv.enter {g : ExecutionGraph} {s : DfsState} {id : OperatorId}
    (hInv : DfsInv g s) (hid : id ∉ s.visited) :
    DfsInv g ⟨id :: s.visited, id :: s.recStack, s.order⟩ where
  nodupOrder := hInv.nodupOrder
  nodupStack := List.nodup_cons.mpr
    ⟨fun hmem => hid (hInv.stackVisited id hmem), hInv.nodupStack⟩
  orderVisited := fun x hx => List.mem_cons_of_mem _ (hInv.orderVisited x hx)
  stackVisited := fun x hx => by
    rcases List.mem_cons.1 hx with rfl | hx
    · exact List.mem_cons_self x _
    · exact List.mem_cons_of_mem _ (hInv.stackVisited x hx)
  visitedSplit := fun x hx => by
    rcases List.mem_cons.1 hx with rfl | hx
    · exact Or.inr (List.mem_cons_self x _)
    · rcases hInv.visitedSplit x hx with h | h
      · exact Or.inl h
      · exact Or.inr (List.mem_cons_of_mem _ h)
  disj := fun x hx hmem => by
    rcases List.mem_cons.1 hmem with rfl | hmem
    · exact hid (hInv.orderVisited x hx)
    · exact hInv.disj x hx hmem
  edges := hInv.edges

/-- Correctness of the successor sweep, parametrised by the behaviour of
the recursive call. -/
theorem visitList_false_spec (g : ExecutionGraph)
    (next : OperatorId → DfsState → Bool × DfsState)
    (hnext : ∀ y u u', DfsInv g u → y ∉ u.visited → next y u = (false, u') →
      SortPost g y u u') :
    ∀ ys s s', DfsInv g s → visitList next ys s = (false, s') → VisitPost g ys s s' := by
  intro ys
  induction ys with
  | nil =>
    intro s s' hInv h
    obtain rfl : s = s' := congrArg Prod.snd h
    exact ⟨hInv, rfl, ⟨[], by simp⟩, fun y hy => absurd hy (List.not_mem_nil y),
           fun x hx => hx, fun x hx => Or.inl hx⟩
  | cons y ys ih =>
    intro s s' hInv h
    unfold visitList at h
    by_cases hv : y ∈ s.visited
    · rw [if_pos hv] at h
      by_cases hr : y ∈ s.recStack
      · rw [if_pos hr] at h
        exact absurd (congrArg Prod.fst h) (by simp)
      · rw [if_neg hr] at h
        obtain ⟨inv', hrs, ⟨t, hord⟩, hys, hgrow, horig⟩ := ih s s' hInv h
        have hyo : y ∈ s.order := (hInv.visitedSplit y hv).resolve_right hr
        refine ⟨inv', hrs, ⟨t, hord⟩, ?_, hgrow, ?_⟩
        · intro z hz
          rcases List.mem_cons.1 hz with rfl | hz
          · rw [hord]; exact List.mem_append_left _ hyo
          · exact hys z hz
        · intro x hx
          rcases horig x hx with hx | hx | hx
          · exact Or.inl hx
          · exact Or.inr (Or.inl (List.mem_cons_of_mem _ hx))
          · exact Or.inr (Or.inr hx)
    · rw [if_neg hv] at h
      cases hn : next y s with
      | mk b s₁ =>
        rw [hn] at h
        cases b with
        | true => exact absurd (congrArg Prod.fst h) (by simp)
        | false =>
          obtain ⟨inv₁, hrs₁, ⟨t₁, hord₁⟩, hy₁, hgrow₁, horig₁⟩ :=
            hnext y s s₁ hInv hv hn
          obtain ⟨inv', hrs', ⟨t₂, hord₂⟩, hys', hgrow₂, horig₂⟩ := ih s₁ s' inv₁ h
          refine ⟨inv', hrs'.trans hrs₁, ⟨t₁ ++ t₂, by rw [hord₂, hord₁, List.append_assoc]⟩,
                  ?_, fun x hx => hgrow₂ x (hgrow₁ x hx), ?_⟩
          · intro z hz
            rcases List.mem_cons.1 hz with rfl | hz
            · rw [hord₂]; exact List.mem_append_left _ hy₁
            · exact hys' z hz
          · intro x hx
            rcases horig₂ x hx with hx | hx | hx
            · rcases horig₁ x hx with hx | rfl | hx
              · exact Or.inl hx
              · exact Or.inr (Or.inl (List.mem_cons_self x _))
              · exact Or.inr (Or.inr hx)
            · exact Or.inr (Or.inl (List.mem_cons_of_mem _ hx))
            · exact Or.inr (Or.inr hx)

/-- Correctness of `topologicalSortUtil` runs that report no cycle. -/
theorem topologicalSortUtil_false_spec (g : ExecutionGraph) :
    ∀ fuel id s s', DfsInv g s → id ∉ s.visited →
      topologicalSortUtil g fuel id s = (false, s') → SortPost g id s s' := by
  intro fuel
  induction fuel with
  | zero =>
    intro id s s' _ _ h
    unfold topologicalSortUtil at h
    exact Bool.noConfusion (congrArg Prod.fst h)
  | succ fuel ih =>
    intro id s s' hInv hid h
    have hInv1 : DfsInv g ⟨id :: s.visited, id :: s.recStack, s.order⟩ := hInv.enter hid
    unfold topologicalSortUtil at h
    cases hvl : visitList (topologicalSortUtil g fuel) (getSuccessors g id)
        ⟨id :: s.visited, id :: s.recStack, s.order⟩ with
    | mk b s₂ =>
      rw [hvl] at h
      cases b with
      | true => exact absurd (congrArg Prod.fst h) (by simp)
      | false =>
        obtain rfl : (⟨s₂.visited, s₂.recStack.erase id, s₂.order ++ [id]⟩ : DfsState) = s' :=
          congrArg Prod.snd h
        obtain ⟨inv₂, hrs₂, ⟨t, hord₂⟩, hsucc, hgrow₂, horig₂⟩ :=
          visitList_false_spec g (topologicalSortUtil g fuel)
            (fun y u u' hu hyu he => ih y u u' hu hyu he)
            (getSuccessors g id) _ s₂ hInv1 hvl
        have hidstack : id ∈ s₂.recStack := by
          rw [hrs₂]; exact List.mem_cons_self id _
        have hidnotord : id ∉ s₂.order := fun hmem => inv₂.disj id hmem hidstack
        have hidnotstack0 : id ∉ s.recStack := fun hmem => hid (hInv.stackVisited id hmem)
        have herase : s₂.recStack.erase id = s.recStack := by
          rw [hrs₂]
          exact List.erase_cons_head id s.recStack
        have hidvis : id ∈ s₂.visited := hgrow₂ id (List.mem_cons_self id _)
        refine ⟨?_, herase, ⟨t ++ [id], by rw [hord₂, List.append_assoc]⟩,
                List.mem_append_right _ (List.mem_cons_self id _),
                fun x hx => hgrow₂ x (List.mem_cons_of_mem _ hx), ?_⟩
        · refine ⟨?_, ?_, ?_, ?_, ?_, ?_, ?_⟩
          · rw [List.nodup_append]
            exact ⟨inv₂.nodupOrder, List.nodup_singleton id,
                   fun x hx hx' => hidnotord ((List.mem_singleton.1 hx') ▸ hx)⟩
          · rw [herase]; exact hInv.nodupStack
          · intro x hx
            rcases List.mem_append.1 hx with hx | hx
            · exact inv₂.orderVisited x hx
            · rcases List.mem_singleton.1 hx with rfl
              exact hidvis
          · intro x hx
            rw [herase] at hx
            exact hgrow₂ x (List.mem_cons_of_mem _ (hInv.stackVisited x hx))
          · intro x hx
            rcases inv₂.visitedSplit x hx with hx' | hx'
            · exact Or.inl (List.mem_append_left _ hx')
            · rw [hrs₂] at hx'
              rcases List.mem_cons.1 hx' with rfl | hx'
              · exact Or.inl (List.mem_append_right _ (List.mem_cons_self x _))
              · exact Or.inr (by rw [herase]; exact hx')
          · intro x hx hmem
            rw [herase] at hmem
            rcases List.mem_append.1 hx with hx | hx
            · exact inv₂.disj x hx (by rw [hrs₂]; exact List.mem_cons_of_mem _ hmem)
            · rcases List.mem_singleton.1 hx with rfl
              exact hidnotstack0 hmem
          · intro x hx y hy
            rcases List.mem_append.1 hx with hx | hx
            · exact (inv₂.edges x hx y hy).append_right [id]
            · rcases List.mem_singleton.1 hx with rfl
              exact Before.snoc_of_mem (hsucc y hy)
        · intro x hx
          rcases horig₂ x hx with hx | hx | hx
          · rcases List.mem_cons.1 hx with rfl | hx
            · exact Or.inr (Or.inl rfl)
            · exact Or.inl hx
          · exact Or.inr (Or.inr ⟨id, hx⟩)
          · exact Or.inr (Or.inr hx)

/-- Correctness of the outer DFS loop when no cycle is found. -/
theorem dfsLoop_false_spec (g : ExecutionGraph) :
    ∀ ks s s', DfsInv g s → dfsLoop g ks s = (false, s') → LoopPost g ks s s' := by
  intro ks
  induction ks with
  | nil =>
    intro s s' hInv h
    obtain rfl : s = s' := congrArg Prod.snd h
    exact ⟨hInv, rfl, ⟨[], by simp⟩, fun k hk => absurd hk (List.not_mem_nil k),
           fun x hx => hx, fun x hx => Or.inl hx⟩
  | cons k ks ih =>
    intro s s' hInv h
    unfold dfsLoop at h
    by_cases hv : k ∈ s.visited
    · rw [if_pos hv] at h
      obtain ⟨inv', hrs, hord, hks, hgrow, horig⟩ := ih s s' hInv h
      refine ⟨inv', hrs, hord, ?_, hgrow, ?_⟩
      · intro z hz
        rcases List.mem_cons.1 hz with rfl | hz
        · exact hgrow z hv
        · exact hks z hz
      · intro x hx
        rcases horig x hx with hx | hx | hx
        · exact Or.inl hx
        · exact Or.inr (Or.inl (List.mem_cons_of_mem _ hx))
        · exact Or.inr (Or.inr hx)
    · rw [if_neg hv] at h
      cases hn : topologicalSortUtil g (dfsFuel g) k s with
      | mk b s₁ =>
        rw [hn] at h
        cases b with
        | true => exact absurd (congrArg Prod.fst h) (by simp)
        | false =>
          obtain ⟨inv₁, hrs₁, ⟨t₁, hord₁⟩, hk₁, hgrow₁, horig₁⟩ :=
            topologicalSortUtil_false_spec g (dfsFuel g) k s s₁ hInv hv hn
          obtain ⟨inv', hrs', ⟨t₂, hord₂⟩, hks', hgrow₂, horig₂⟩ := ih s₁ s' inv₁ h
          refine ⟨inv', hrs'.trans hrs₁,
                  ⟨t₁ ++ t₂, by rw [hord₂, hord₁, List.append_assoc]⟩, ?_,
                  fun x hx => hgrow₂ x (hgrow₁ x hx), ?_⟩
          · intro z hz
            rcases List.mem_cons.1 hz with rfl | hz
            · exact hgrow₂ z (inv₁.orderVisited z hk₁)
            · exact hks' z hz
          · intro x hx
            rcases horig₂ x hx with hx | hx | hx
            · rcases horig₁ x hx with hx | rfl | hx
              · exact Or.inl hx
              · exact Or.inr (Or.inl (List.mem_cons_self x _))
              · exact Or.inr (Or.inr hx)
            · exact Or.inr (Or.inl (List.mem_cons_of_mem _ hx))
            · exact Or.inr (Or.inr hx)

/-- The initial DFS state satisfies the invariant. -/
theorem dfsInv_init (g : ExecutionGraph) : DfsInv g ⟨[], [], []⟩ where
  nodupOrder := List.nodup_nil
  nodupStack := List.nodup_nil
  orderVisited := fun x hx => absurd hx (List.not_mem_nil x)
  stackVisited := fun x hx => absurd hx (List.not_mem_nil x)
  visitedSplit := fun x hx => absurd hx (List.not_mem_nil x)
  disj := fun x hx => absurd hx (List.not_mem_nil x)
  edges := fun x hx => absurd hx (List.not_mem_nil x)

/-! ### C4: validate vs. the topological-order criterion -/

/-- C4: `validate()` agrees with the spec's criterion — true iff
`getTopologicalOrder()` yields a non-empty vector or the graph has no
operators. (`validateSpec` transcribes the spec's wording; `validate` is
the cycle-detection implementation.) -/
theorem validate_eq_validateSpec (g : ExecutionGraph) :
    validate g = validateSpec g := by
  unfold validate isValid detectCycles validateSpec getTopologicalOrder
  cases hr : dfsLoop g g.keys ⟨[], [], []⟩ with
  | mk cyc s' =>
    cases cyc with
    | false =>
      cases hk : g.keys with
      | nil => simp
      | cons k ks =>
        obtain ⟨inv', hrs, -, hks, -, -⟩ :=
          dfsLoop_false_spec g g.keys ⟨[], [], []⟩ s' (dfsInv_init g) hr
        have hko : k ∈ s'.order := by
          have hkv : k ∈ s'.visited := hks k (by rw [hk]; exact List.mem_cons_self k ks)
          rcases inv'.visitedSplit k hkv with h | h
          · exact h
          · rw [hrs] at h
            exact absurd h (List.not_mem_nil k)
        have hne : s'.order.reverse ≠ [] := by
          simp only [ne_eq, List.reverse_eq_nil_iff]
          intro he
          rw [he] at hko
          exact List.not_mem_nil k hko
        simp [hne]
    | true =>
      cases hk : g.keys with
      | nil =>
        rw [hk] at hr
        simp [dfsLoop] at hr
      | cons k ks => simp

/-! ### C5: correctness of the topological order on validated graphs -/

/-- C5 (counterexample): `connectOperators(0, 7)` with 7 unregistered
leaves a graph that validates, yet `getTopologicalOrder()` returns
`[0, 7]`, which is not a permutation of the registered ids `[0]`. -/
theorem getTopologicalOrder_counterexample :
    validate (connectOperators (addOperator emptyGraph).2 0 7) = true
    ∧ getTopologicalOrder (connectOperators (addOperator emptyGraph).2 0 7) = [0, 7]
    ∧ ¬ (getTopologicalOrder (connectOperators (addOperator emptyGraph).2 0 7)).Perm
        (connectOperators (addOperator emptyGraph).2 0 7).keys := by
  refine ⟨by decide, by decide, ?_⟩
  intro hp
  have hlen := hp.length_eq
  rw [show getTopologicalOrder (connectOperators (addOperator emptyGraph).2 0 7)
      = [0, 7] from by decide] at hlen
  simp [addOperator, connectOperators, emptyGraph] at hlen

/-- C5 (amended): for every graph with duplicate-free registered ids in
which every stored edge joins registered operators, if `validate()`
returns true then `getTopologicalOrder()` returns a permutation of all
registered operator ids in which, for every edge `(a, b)` of the forward
adjacency, `a` precedes `b`. -/
theorem getTopologicalOrder_correct (g : ExecutionGraph)
    (hnd : g.keys.Nodup)
    (hcl : ∀ p ∈ g.adj, p.1 ∈ g.keys ∧ ∀ b ∈ p.2, b ∈ g.keys)
    (hv : validate g = true) :
    (getTopologicalOrder g).Perm g.keys
    ∧ ∀ a b, b ∈ getSuccessors g a → Before (getTopologicalOrder g) a b := by
  cases hr : dfsLoop g g.keys ⟨[], [], []⟩ with
  | mk cyc s' =>
    cases cyc with
    | true =>
      exfalso
      unfold validate isValid detectCycles at hv
      rw [hr] at hv
      exact Bool.noConfusion hv
    | false =>
      have htopo : getTopologicalOrder g = s'.order.reverse := by
        unfold getTopologicalOrder
        rw [hr]
        rfl
      obtain ⟨inv', hrs, -, hks, -, horig⟩ :=
        dfsLoop_false_spec g g.keys ⟨[], [], []⟩ s' (dfsInv_init g) hr
      have hsucc_keys : ∀ a y, y ∈ getSuccessors g a → y ∈ g.keys := by
        intro a y hy
        obtain ⟨p, hp, -, hyp⟩ := mapLookup_mem_entry hy
        exact (hcl p hp).2 y hyp
      have hk2o : ∀ k ∈ g.keys, k ∈ s'.order := by
        intro k hk
        rcases inv'.visitedSplit k (hks k hk) with h | h
        · exact h
        · rw [hrs] at h
          exact absurd h (List.not_mem_nil k)
      have ho2k : ∀ x ∈ s'.order, x ∈ g.keys := by
        intro x hx
        rcases horig x (inv'.orderVisited x hx) with hx' | hx' | hx'
        · exact absurd hx' (List.not_mem_nil x)
        · exact hx'
        · obtain ⟨a, ha⟩ := hx'
          exact hsucc_keys a x ha
      have hperm : s'.order.Perm g.keys :=
        (inv'.nodupOrder.subperm fun x hx => ho2k x hx).antisymm
          (hnd.subperm fun x hx => hk2o x hx)
      rw [htopo]
      constructor
      · exact (List.reverse_perm s'.order).trans hperm
      · intro a b hb
        have hao : a ∈ s'.order := by
          obtain ⟨p, hp, hpa, -⟩ := mapLookup_mem_entry hb
          exact hk2o a (hpa ▸ (hcl p hp).1)
        exact (inv'.edges a hao b hb).reverse

/-! ### Sufficiency of the DFS fuel

The C++ `topologicalSortUtil` recursion is unbounded; the embedding's
fuel parameter is an artefact of totality. These lemmas show the fuel
passed by `dfsLoop` (`dfsFuel g`) can never be exhausted: raising it
further does not change any result, so the embedding computes exactly
what the unbounded recursion computes. -/

theorem succ_subset_nodes (g : ExecutionGraph) (a : OperatorId) :
    ∀ y ∈ getSuccessors g a, y ∈ nodesList g := by
  intro y hy
  obtain ⟨p, hp, -, hyp⟩ := mapLookup_mem_entry hy
  unfold nodesList
  refine List.mem_append_right _ ?_
  exact List.mem_flatten.mpr ⟨p.2, List.mem_map.mpr ⟨p, hp, rfl⟩, hyp⟩

theorem unseenV_le (g : ExecutionGraph) (v : List OperatorId) :
    unseenV g v ≤ (nodesList g).length :=
  le_trans (Finset.card_le_card (Finset.sdiff_subset))
    (List.toFinset_card_le (nodesList g))

theorem unseenV_mono (g : ExecutionGraph) {v v' : List OperatorId}
    (h : ∀ x ∈ v, x ∈ v') : unseenV g v' ≤ unseenV g v := by
  refine Finset.card_le_card ?_
  intro x hx
  rw [Finset.mem_sdiff] at hx ⊢
  refine ⟨hx.1, fun hmem => hx.2 ?_⟩
  rw [List.mem_toFinset] at hmem ⊢
  exact h x hmem

theorem unseenV_cons_lt (g : ExecutionGraph) {v : List OperatorId} {id : OperatorId}
    (hid : id ∈ nodesList g) (hnv : id ∉ v) :
    unseenV g (id :: v) < unseenV g v := by
  refine Finset.card_lt_card ?_
  constructor
  · intro x hx
    rw [Finset.mem_sdiff] at hx ⊢
    refine ⟨hx.1, fun hmem => hx.2 ?_⟩
    rw [List.mem_toFinset] at hmem ⊢
    exact List.mem_cons_of_mem _ hmem
  · intro hsub
    have hidmem : id ∈ (nodesList g).toFinset \ v.toFinset := by
      rw [Finset.mem_sdiff, List.mem_toFinset, List.mem_toFinset]
      exact ⟨hid, hnv⟩
    have hcontra := hsub hidmem
    simp only [Finset.mem_sdiff, List.mem_toFinset] at hcontra
    exact hcontra.2 (List.mem_cons_self id v)

theorem unseenV_pos (g : ExecutionGraph) {v : List OperatorId} {id : OperatorId}
    (hid : id ∈ nodesList g) (hnv : id ∉ v) : 0 < unseenV g v := by
  refine Finset.card_pos.mpr ⟨id, ?_⟩
  rw [Finset.mem_sdiff, List.mem_toFinset, List.mem_toFinset]
  exact ⟨hid, hnv⟩

theorem visitList_visited_mono (next : OperatorId → DfsState → Bool × DfsState)
    (hnext : ∀ y u x, x ∈ u.visited → x ∈ (next y u).2.visited) :
    ∀ ys s x, x ∈ s.visited → x ∈ (visitList next ys s).2.visited := by
  intro ys
  induction ys with
  | nil => intro s x hx; exact hx
  | cons y ys ih =>
    intro s x hx
    unfold visitList
    by_cases hv : y ∈ s.visited
    · rw [if_pos hv]
      by_cases hr : y ∈ s.recStack
      · rw [if_pos hr]; exact hx
      · rw [if_neg hr]; exact ih s x hx
    · rw [if_neg hv]
      cases hn : next y s with
      | mk b s₁ =>
        have hx₁ : x ∈ s₁.visited := by
          have hgrow := hnext y s x hx
          rw [hn] at hgrow
          exact hgrow
        cases b with
        | true => exact hx₁
        | false => exact ih s₁ x hx₁

theorem topologicalSortUtil_visited_mono (g : ExecutionGraph) :
    ∀ fuel id s x, x ∈ s.visited →
      x ∈ (topologicalSortUtil g fuel id s).2.visited := by
  intro fuel
  induction fuel with
  | zero => intro id s x hx; exact hx
  | succ fuel ih =>
    intro id s x hx
    unfold topologicalSortUtil
    cases hvl : visitList (topologicalSortUtil g fuel) (getSuccessors g id)
        ⟨id :: s.visited, id :: s.recStack, s.order⟩ with
    | mk b s₂ =>
      have hx₂ : x ∈ s₂.visited := by
        have hgrow := visitList_visited_mono (topologicalSortUtil g fuel)
          (fun y u z hz => ih y u z hz) (getSuccessors g id)
          ⟨id :: s.visited, id :: s.recStack, s.order⟩ x (List.mem_cons_of_mem _ hx)
        rw [hvl] at hgrow
        exact hgrow
      cases b with
      | true => exact hx₂
      | false => exact hx₂

theorem visitList_fuel_aux (g : ExecutionGraph) (fuel : Nat)
    (hIH : ∀ id s, id ∈ nodesList g → id ∉ s.visited → unseenV g s.visited ≤ fuel →
      topologicalSortUtil g fuel id s = topologicalSortUtil g (fuel + 1) id s) :
    ∀ ys s, (∀ y ∈ ys, y ∈ nodesList g) → unseenV g s.visited ≤ fuel →
      visitList (topologicalSortUtil g fuel) ys s
        = visitList (topologicalSortUtil g (fuel + 1)) ys s := by
  intro ys
  induction ys with
  | nil => intro s _ _; rfl
  | cons y ys ih =>
    intro s hys hfuel
    unfold visitList
    by_cases hv : y ∈ s.visited
    · rw [if_pos hv, if_pos hv]
      by_cases hr : y ∈ s.recStack
      · rw [if_pos hr, if_pos hr]
      · rw [if_neg hr, if_neg hr]
        exact ih s (fun z hz => hys z (List.mem_cons_of_mem _ hz)) hfuel
    · rw [if_neg hv, if_neg hv,
        ← hIH y s (hys y (List.mem_cons_self y ys)) hv hfuel]
      cases hn : topologicalSortUtil g fuel y s with
      | mk b s₁ =>
        cases b with
        | true => rfl
        | false =>
          have hone : ∀ x ∈ s.visited, x ∈ s₁.visited := by
            intro x hx
            have hgrow := topologicalSortUtil_visited_mono g fuel y s x hx
            rw [hn] at hgrow
            exact hgrow
          exact ih s₁ (fun z hz => hys z (List.mem_cons_of_mem _ hz))
            (le_trans (unseenV_mono g hone) hfuel)

theorem topologicalSortUtil_fuel_succ (g : ExecutionGraph) :
    ∀ fuel id s, id ∈ nodesList g → id ∉ s.visited → unseenV g s.visited ≤ fuel →
      topologicalSortUtil g fuel id s = topologicalSortUtil g (fuel + 1) id s := by
  intro fuel
  induction fuel with
  | zero =>
    intro id s hid hnv hfuel
    exact absurd (lt_of_lt_of_le (unseenV_pos g hid hnv) hfuel) (Nat.lt_irrefl 0)
  | succ fuel ih =>
    intro id s hid hnv hfuel
    show (match visitList (topologicalSortUtil g fuel) (getSuccessors g id)
        ⟨id :: s.visited, id :: s.recStack, s.order⟩ with
      | (true, s2) => (true, s2)
      | (false, s2) => (false, ⟨s2.visited, s2.recStack.erase id, s2.order ++ [id]⟩))
      = (match visitList (topologicalSortUtil g (fuel + 1)) (getSuccessors g id)
        ⟨id :: s.visited, id :: s.recStack, s.order⟩ with
      | (true, s2) => (true, s2)
      | (false, s2) => (false, ⟨s2.visited, s2.recStack.erase id, s2.order ++ [id]⟩))
    rw [visitList_fuel_aux g fuel ih (getSuccessors g id)
        ⟨id :: s.visited, id :: s.recStack, s.order⟩
        (fun y hy => succ_subset_nodes g id y hy) ?_]
    have hlt := unseenV_cons_lt g hid hnv
    exact Nat.le_of_lt_succ (lt_of_lt_of_le hlt hfuel)

/-- Raising the fuel beyond a sufficient value never changes the DFS
outcome. -/
theorem topologicalSortUtil_fuel_ge (g : ExecutionGraph) (k : Nat) :
    ∀ fuel id s, id ∈ nodesList g → id ∉ s.visited → unseenV g s.visited ≤ fuel →
      topologicalSortUtil g fuel id s = topologicalSortUtil g (fuel + k) id s := by
  induction k with
  | zero => intro fuel id s _ _ _; rfl
  | succ k ih =>
    intro fuel id s hid hnv hfuel
    rw [ih fuel id s hid hnv hfuel,
      topologicalSortUtil_fuel_succ g (fuel + k) id s hid hnv
        (le_trans hfuel (Nat.le_add_right fuel k))]
    rfl

/-- The fuel `dfsFuel g` passed by `dfsLoop` is sufficient: the embedded
DFS agrees with every larger fuel, hence with the unbounded C++
recursion. -/
theorem dfsFuel_sufficient (g : ExecutionGraph) (k : Nat) (id : OperatorId) (s : DfsState)
    (hid : id ∈ nodesList g) (hnv : id ∉ s.visited) :
    topologicalSortUtil g (dfsFuel g) id s = topologicalSortUtil g (dfsFuel g + k) id s :=
  topologicalSortUtil_fuel_ge g k (dfsFuel g) id s hid hnv
    (le_trans (unseenV_le g s.visited) (Nat.le_succ _))

/-- Witness for `getTopologicalOrder_correct`: the registered chain
0 → 1. -/
theorem getTopologicalOrder_correct_witness :
    (getTopologicalOrder (connectOperators (addOperator (addOperator emptyGraph).2).2 0 1)).Perm
        (connectOperators (addOperator (addOperator emptyGraph).2).2 0 1).keys
    ∧ ∀ a b, b ∈ getSuccessors (connectOperators (addOperator (addOperator emptyGraph).2).2 0 1) a →
        Before (getTopologicalOrder (connectOperators (addOperator (addOperator emptyGraph).2).2 0 1)) a b :=
  getTopologicalOrder_correct _ (by decide) (by decide) (by decide)

end SageFlow
